import Mathlib

/-!
Shallow embedding of the rendering core of DesktopGrouping
(hex-color parsing, grid layout, accent-color derivation, text
truncation, DIB icon decoding and the frame-finish pixel conversion),
together with proofs about the embedded functions.

Floating-point values (`f32`/`f64`) are modelled by exact rationals `ℚ`;
machine integers are modelled by `ℕ`/`Int` with explicit `% 2^32` where
the source's `u32` arithmetic can wrap.  Rust `&str` values are modelled
as `List Char`; the byte-index slicing done by the source only differs
from character indexing on non-ASCII strings, which every function below
rejects on both readings (a comment at the relevant definition explains
this).
-/

/-- Model of `tiny_skia::Color`: straight-alpha RGBA with components in `[0,1]`. -/
structure TsColor where
  r : ℚ
  g : ℚ
  b : ℚ
  a : ℚ
  deriving DecidableEq, Repr

/-- Model of `tiny_skia::Color::from_rgba8`. -/
def TsColor.fromRgba8 (r g b a : ℕ) : TsColor :=
  ⟨(r : ℚ) / 255, (g : ℚ) / 255, (b : ℚ) / 255, (a : ℚ) / 255⟩

/-- Value of a single hexadecimal digit, as accepted by Rust
`char::to_digit(16)`: `0-9`, `a-f`, `A-F`. -/
def hexDigitVal (c : Char) : Option ℕ :=
  let n := c.toNat
  if 48 ≤ n ∧ n ≤ 57 then some (n - 48)
  else if 97 ≤ n ∧ n ≤ 102 then some (n - 97 + 10)
  else if 65 ≤ n ∧ n ≤ 70 then some (n - 65 + 10)
  else none

/-- One accumulator step of `u8::from_str_radix(_, 16)`: multiply by
the radix, add the next digit, fail on a non-digit or on overflow past
255. -/
def hexFoldStep (acc : Option ℕ) (c : Char) : Option ℕ := do
  let a ← acc
  let d ← hexDigitVal c
  let v := a * 16 + d
  if v ≤ 255 then some v else none

/-- Digit-sequence part of `u8::from_str_radix(s, 16)`: a nonempty
sequence of hex digits, rejecting values that overflow a `u8`. -/
def fromHexDigitsU8 (s : List Char) : Option ℕ :=
  if s = [] then none
  else s.foldl hexFoldStep (some 0)

/-- Model of Rust `u8::from_str_radix(s, 16)`: an optional leading `'+'`
is accepted (a `'-'` is rejected for unsigned integer types), followed
by a nonempty hex-digit sequence fitting in a `u8`. -/
def fromStrRadix16U8 (s : List Char) : Option ℕ :=
  match s with
  | c :: rest => if c = '+' then fromHexDigitsU8 rest else fromHexDigitsU8 (c :: rest)
  | [] => fromHexDigitsU8 []

/-- Model of `str::strip_prefix('#').unwrap_or(s)`: drop one leading `'#'`. -/
def stripHash (s : List Char) : List Char :=
  match s with
  | '#' :: rest => rest
  | _ => s

/-- Embedding of `parse_color` (src/graphics/colors.rs): optional
leading `'#'`, then exactly 6 or 8 characters split into 2-character
groups, each parsed by `u8::from_str_radix(_, 16)`; a 6-character string
gets alpha `"FF"`.  The source slices by byte index (`s.get(0..2)`),
this model by character index: the two differ only on strings containing
non-ASCII characters, and such strings are rejected on both readings
(a multi-byte character either breaks a byte boundary, making `get`
return `None`, or puts a non-hex byte into some group). -/
def parse_color (s : List Char) : Option TsColor := do
  let t := stripHash s
  let (rs, gs, bs, as_) ←
    if t.length = 6 then
      some (t.take 2, (t.drop 2).take 2, (t.drop 4).take 2, ['F', 'F'])
    else if t.length = 8 then
      some (t.take 2, (t.drop 2).take 2, (t.drop 4).take 2, (t.drop 6).take 2)
    else none
  let r ← fromStrRadix16U8 rs
  let g ← fromStrRadix16U8 gs
  let b ← fromStrRadix16U8 bs
  let a ← fromStrRadix16U8 as_
  some (TsColor.fromRgba8 r g b a)

/-- Rust `as u8` on a nonnegative float-like value: truncate toward
zero and saturate at 255 (negative values saturate to 0). -/
def ratToU8 (q : ℚ) : ℕ := min 255 (Int.toNat ⌊q⌋)

/-- Uppercase hex digit character for a value `< 16`. -/
def hexChar (d : ℕ) : Char :=
  if d < 10 then Char.ofNat ('0'.toNat + d) else Char.ofNat ('A'.toNat + (d - 10))

/-- Two-digit uppercase hex rendering of a byte (`format "02X"`). -/
def toHexPair (n : ℕ) : List Char := [hexChar (n / 16 % 16), hexChar (n % 16)]

/-- Embedding of `color_to_hex_string` (src/child_window.rs): format a
color as `#RRGGBBAA` from `(channel * 255.0) as u8`. -/
def color_to_hex_string (c : TsColor) : List Char :=
  '#' :: (toHexPair (ratToU8 (c.r * 255)) ++ toHexPair (ratToU8 (c.g * 255)) ++
          toHexPair (ratToU8 (c.b * 255)) ++ toHexPair (ratToU8 (c.a * 255)))

/-- Characterisation (not used by `parse_color` itself) of the
2-character groups `u8::from_str_radix` accepts: two hex digits, or a
`'+'` followed by one hex digit. -/
def hexPairAccepted (p : List Char) : Bool :=
  match p with
  | [c1, c2] =>
      ((hexDigitVal c1).isSome && (hexDigitVal c2).isSome) ||
        (c1 = '+' && (hexDigitVal c2).isSome)
  | _ => false

/-- Shape of the strings `parse_color` accepts. -/
def parseColorAccepted (s : List Char) : Bool :=
  let t := stripHash s
  (decide (t.length = 6) &&
    (hexPairAccepted (t.take 2) && hexPairAccepted ((t.drop 2).take 2) &&
      hexPairAccepted ((t.drop 4).take 2))) ||
  (decide (t.length = 8) &&
    (hexPairAccepted (t.take 2) && hexPairAccepted ((t.drop 2).take 2) &&
      hexPairAccepted ((t.drop 4).take 2) && hexPairAccepted ((t.drop 6).take 2)))

/-- Model of `tiny_skia::Rect`, stored as in `Rect::from_xywh`. -/
structure TsRect where
  x : ℚ
  y : ℚ
  w : ℚ
  h : ℚ
  deriving DecidableEq, Repr

/-- Model of `tiny_skia::Rect::from_xywh`: `None` unless the width and
height are positive (the source also rejects non-finite floats, which
have no counterpart in `ℚ`). -/
def TsRect.fromXywh (x y w h : ℚ) : Option TsRect :=
  if 0 < w ∧ 0 < h then some ⟨x, y, w, h⟩ else none

/-- Embedding of `calculate_internal_layout` (src/graphics/layout.rs):
returns `(items_per_row, max_text_width, item_width, item_height)`.
`((window_width - padding) / item_width).floor().max(1.0) as usize` is
modelled as `Int.toNat (max 1 ⌊...⌋)`. -/
def calculate_internal_layout (window_width : ℕ) (layout_icon_size padding
    padding_under_icon text_height : ℚ) : ℕ × ℚ × ℚ × ℚ :=
  let max_text_width := layout_icon_size * 2
  let item_width := max_text_width + padding
  let item_height := layout_icon_size + padding_under_icon + text_height + padding
  let items_per_row : ℕ :=
    if 0 < item_width then
      Int.toNat (max 1 ⌊((window_width : ℚ) - padding) / item_width⌋)
    else 1
  (items_per_row, max_text_width, item_width, item_height)

/-- Embedding of `get_item_rect_f32` (src/graphics/layout.rs). -/
def get_item_rect_f32 (index : ℕ) (width height : ℕ) (items_per_row : ℕ)
    (item_width item_height padding adjust_select_rect : ℚ) : Option TsRect :=
  if width = 0 ∨ height = 0 ∨ items_per_row = 0 then none
  else
    let col := index % items_per_row
    let row := index / items_per_row
    let grid_x := (col : ℚ) * item_width + padding
    let grid_y := (row : ℚ) * item_height + padding
    let adjusted_y := grid_y - adjust_select_rect
    let adjusted_height := (item_height - padding) + adjust_select_rect * 2
    TsRect.fromXywh grid_x adjusted_y (item_width - padding) adjusted_height

/-- Embedding of the `srgb_to_linear` closure in
`get_contrasting_text_color` (src/graphics/layout.rs).  The only
non-rational operation of the source, `x.powf(2.4)`, is abstracted by
the function parameter `pw`; everything proved below holds for every
choice of `pw`. -/
def srgbToLinear (pw : ℚ → ℚ) (c : ℚ) : ℚ :=
  if c ≤ 3928 / 100000 then c / (1292 / 100)
  else pw ((c + 55 / 1000) / (1055 / 1000))

/-- WCAG relative luminance as computed by `get_contrasting_text_color`. -/
def wcagLuminance (pw : ℚ → ℚ) (bg : TsColor) : ℚ :=
  2126 / 10000 * srgbToLinear pw bg.r + 7152 / 10000 * srgbToLinear pw bg.g +
    722 / 10000 * srgbToLinear pw bg.b

/-- Embedding of `get_contrasting_text_color` (src/graphics/layout.rs). -/
def get_contrasting_text_color (pw : ℚ → ℚ) (bg : TsColor) : TsColor :=
  if 22 / 100 < wcagLuminance pw bg then TsColor.fromRgba8 0 0 0 255
  else TsColor.fromRgba8 255 255 255 255

/-- Model of `colorsys::Rgb` (channels on the 0–255 scale). -/
structure CsRgb where
  r : ℚ
  g : ℚ
  b : ℚ
  deriving DecidableEq, Repr

/-- Model of `colorsys::Hsl` (hue 0–360, saturation and lightness 0–100). -/
structure CsHsl where
  h : ℚ
  s : ℚ
  l : ℚ
  deriving DecidableEq, Repr

/-- Rust `f64::rem (%)` for the nonnegative operands used below (where
it agrees with the floor-based remainder). -/
def qmod (a b : ℚ) : ℚ := a - b * (⌊a / b⌋ : ℚ)

/-- RGB→HSL conversion as performed by `colorsys` (standard algorithm;
channels scaled to `[0,1]`, hue to 0–360, saturation/lightness to 0–100). -/
def rgbToHsl (c : CsRgb) : CsHsl :=
  let r := c.r / 255
  let g := c.g / 255
  let b := c.b / 255
  let mx := max r (max g b)
  let mn := min r (min g b)
  let l := (mx + mn) / 2
  if mx = mn then ⟨0, 0, l * 100⟩
  else
    let d := mx - mn
    let s := if 1 / 2 < l then d / (2 - mx - mn) else d / (mx + mn)
    let h :=
      if mx = r then (g - b) / d + (if g < b then 6 else 0)
      else if mx = g then (b - r) / d + 2
      else (r - g) / d + 4
    ⟨h * 60, s * 100, l * 100⟩

/-- Helper of the standard HSL→RGB conversion. -/
def hueToRgb (p q t0 : ℚ) : ℚ :=
  let t := if t0 < 0 then t0 + 1 else if 1 < t0 then t0 - 1 else t0
  if t < 1 / 6 then p + (q - p) * 6 * t
  else if t < 1 / 2 then q
  else if t < 2 / 3 then p + (q - p) * (2 / 3 - t) * 6
  else p

/-- HSL→RGB conversion as performed by `colorsys` (standard algorithm). -/
def hslToRgb (c : CsHsl) : CsRgb :=
  let h := c.h / 360
  let s := c.s / 100
  let l := c.l / 100
  if s = 0 then ⟨l * 255, l * 255, l * 255⟩
  else
    let q := if l < 1 / 2 then l * (1 + s) else l + s - l * s
    let p := 2 * l - q
    ⟨hueToRgb p q (h + 1 / 3) * 255, hueToRgb p q h * 255,
      hueToRgb p q (h - 1 / 3) * 255⟩

/-- HSL value of the border color computed by `calculate_border_color`
(src/child_window.rs) just before the final HSL→RGB conversion.  The
`hash` argument stands for `DefaultHasher(id_str).finish()`: Rust's
`DefaultHasher::new()` uses fixed keys, so that value is itself a pure
function of `id_str`.  The `colorsys` setters are plain field updates
for values already inside their range, which all the values written
here are. -/
def border_hsl (bg : TsColor) (hash : ℕ) : CsHsl :=
  let bg_rgb : CsRgb := ⟨bg.r * 255, bg.g * 255, bg.b * 255⟩
  let bg_hsl := rgbToHsl bg_rgb
  let h1 := qmod (bg_hsl.h + 180) 360
  let bg_luminance := bg_hsl.l
  let l1 := if 50 < bg_luminance then min bg_hsl.l 40 else max bg_hsl.l 60
  let s1 := max bg_hsl.s 30
  let hue_shift : ℚ := ((hash % 21 : ℕ) : ℚ) - 10
  let h2 := qmod (h1 + hue_shift + 360) 360
  ⟨h2, s1, l1⟩

/-- Embedding of `calculate_border_color` (src/child_window.rs): derive
an opaque accent color from the background color and the hash of the
window id. -/
def calculate_border_color (bg : TsColor) (hash : ℕ) : TsColor :=
  let border_rgb := hslToRgb (border_hsl bg hash)
  TsColor.fromRgba8 (ratToU8 border_rgb.r) (ratToU8 border_rgb.g)
    (ratToU8 border_rgb.b) 255

/-- MIN_ALPHA constant of `MyGraphics` (src/graphics/graphics.rs). -/
def MIN_ALPHA : ℚ := 5 / 100

/-- Embedding of `MyGraphics::clamp_alpha` (src/graphics/graphics.rs):
raise the alpha channel to `MIN_ALPHA`, keeping RGB. -/
def clamp_alpha (c : TsColor) : TsColor :=
  if c.a < MIN_ALPHA then ⟨c.r, c.g, c.b, MIN_ALPHA⟩ else c

/-- Log levels emitted by `ChildWindow::set_background_color`. -/
inductive LogLevel where
  | debug
  | warn
  deriving DecidableEq, Repr

/-- Background and border color held by a `ChildWindow`'s `MyGraphics`
(the two solid paints). -/
structure WindowColors where
  bg : TsColor
  border : TsColor
  deriving DecidableEq, Repr

/-- Embedding of `ChildWindow::set_background_color`
(src/child_window.rs): parse the string; on success store the parsed
background (through `MyGraphics::update_background_color`, which clamps
alpha), recompute and store the border color likewise, and log at debug
level; on failure leave the state untouched and log a warning. -/
def set_background_color (st : WindowColors) (hash : ℕ) (s : List Char) :
    WindowColors × LogLevel :=
  match parse_color s with
  | some bg_color =>
      (⟨clamp_alpha bg_color, clamp_alpha (calculate_border_color bg_color hash)⟩,
        LogLevel.debug)
  | none => (st, LogLevel.warn)

/-- Abstract model of an `ab_glyph` scaled font: glyph lookup (id `0` is
the undefined glyph, as in `ab_glyph`), horizontal advance and kerning.
All text theorems below are proved for every such font. -/
structure FontModel where
  glyphId : Char → ℕ
  advance : ℕ → ℚ
  kern : ℕ → ℕ → ℚ

/-- Kerning against an optional previous glyph (`0` when there is none),
as accumulated by the source loops. -/
def kernOpt (f : FontModel) (last : Option ℕ) (gid : ℕ) : ℚ :=
  match last with
  | some l => f.kern l gid
  | none => 0

/-- Accumulator loop of `calculate_text_width`
(src/graphics/layout.rs): undefined glyphs are skipped, each defined
glyph adds its kerning with the previous defined glyph plus its
advance. -/
def ctwLoop (f : FontModel) : List Char → ℚ → Option ℕ → ℚ
  | [], total, _ => total
  | c :: rest, total, last =>
      let gid := f.glyphId c
      if gid = 0 then ctwLoop f rest total last
      else ctwLoop f rest (total + kernOpt f last gid + f.advance gid) (some gid)

/-- Embedding of `calculate_text_width` (src/graphics/layout.rs). -/
def calculate_text_width (f : FontModel) (text : List Char) : ℚ :=
  ctwLoop f text 0 none

/-- Context-passing reformulation of the text width (width of a list
given the previous defined glyph); used for the append lemmas. -/
def ctwFrom (f : FontModel) : List Char → Option ℕ → ℚ
  | [], _ => 0
  | c :: rest, last =>
      let gid := f.glyphId c
      if gid = 0 then ctwFrom f rest last
      else kernOpt f last gid + f.advance gid + ctwFrom f rest (some gid)

/-- Last defined glyph of a list, given the previous one. -/
def lastGidFrom (f : FontModel) : List Char → Option ℕ → Option ℕ
  | [], last => last
  | c :: rest, last =>
      let gid := f.glyphId c
      if gid = 0 then lastGidFrom f rest last
      else lastGidFrom f rest (some gid)

/-- First defined glyph of a list. -/
def firstGid (f : FontModel) : List Char → Option ℕ
  | [] => none
  | c :: rest =>
      let gid := f.glyphId c
      if gid = 0 then firstGid f rest
      else some gid

/-- Kerning adjustment applied between two concatenated pieces of text:
the kerning between the last defined glyph of `pre` and the first
defined glyph of `post` (0 when either side has none). -/
def junctionKern (f : FontModel) (pre post : List Char) : ℚ :=
  match lastGidFrom f pre none, firstGid f post with
  | some a, some b => f.kern a b
  | _, _ => 0

/-- The ellipsis string `"..."` used by `draw_text`. -/
def ellipsisChars : List Char := ['.', '.', '.']

/-- Truncation loop of `draw_text` (src/graphics/drawing.rs lines
163–178): walk the characters, skipping undefined glyphs; for a defined
glyph whose width (advance plus kerning with the previous defined
glyph) still fits in `target`, accumulate it and remember the position
just after it (`truncated_len`, here a character count); stop at the
first defined glyph that does not fit.  Returns the final
`truncated_len`. -/
def truncLen (f : FontModel) (target : ℚ) : List Char → ℚ → Option ℕ → ℕ → ℕ → ℕ
  | [], _, _, _, kept => kept
  | c :: rest, current_width, last, pos, kept =>
      let gid := f.glyphId c
      if gid = 0 then truncLen f target rest current_width last (pos + 1) kept
      else
        let char_width := f.advance gid + kernOpt f last gid
        if target < current_width + char_width then kept
        else truncLen f target rest (current_width + char_width) (some gid)
          (pos + 1) (pos + 1)

/-- Ellipsis-truncation step of `draw_text` (src/graphics/drawing.rs
lines 148–182), extracted as a function from text and maximum width to
the text actually drawn (the spec's `fitWithEllipsis`). -/
def fit_with_ellipsis (f : FontModel) (text : List Char) (max_width : ℚ) :
    List Char :=
  let ellipsis_width := calculate_text_width f ellipsisChars
  let final_text_width := calculate_text_width f text
  if max_width < final_text_width then
    if max_width ≤ ellipsis_width then ellipsisChars
    else
      let target_width := max_width - ellipsis_width
      let truncated_len := truncLen f target_width text 0 none 0 0
      text.take truncated_len ++ ellipsisChars
  else text

/-- Fields of the Windows `BITMAPINFOHEADER` read by `draw_icon`.
`biWidth` and `biHeight` are `i32` in the source; theorems constrain
them to that range where it matters. -/
structure BitmapHeader where
  biWidth : Int
  biHeight : Int
  biBitCount : ℕ
  biCompression : ℕ
  deriving DecidableEq, Repr

/-- Modulus of the source's `u32` arithmetic. -/
def U32 : ℕ := 2 ^ 32

/-- Model of `tiny_skia::PremultipliedColorU8` (byte channels with
`r,g,b ≤ a`). -/
structure PremulColor where
  r : ℕ
  g : ℕ
  b : ℕ
  a : ℕ
  deriving DecidableEq, Repr

/-- Model of `PremultipliedColorU8::from_rgba`: `None` unless each color
channel is bounded by the alpha channel. -/
def premulFromRgba (r g b a : ℕ) : Option PremulColor :=
  if r ≤ a ∧ g ≤ a ∧ b ≤ a then some ⟨r, g, b, a⟩ else none

/-- Result of `draw_icon`: either the placeholder square (with the size
it is drawn at) or a decoded icon pixmap, represented as the written
pixel at each destination coordinate (`none` where the loop body wrote
nothing, leaving the pixel transparent). -/
inductive IconDraw where
  | placeholder (w h : ℕ)
  | icon (w h : ℕ) (pix : ℕ → ℕ → Option PremulColor)

/-- Whether a `draw_icon` result is the placeholder. -/
def IconDraw.isPlaceholder : IconDraw → Bool
  | .placeholder _ _ => true
  | .icon _ _ _ => false

/-- Body of the `draw_icon` pixel loop after its bounds guard
(src/graphics/drawing.rs lines 83–112): read the `B,G,R[,A]` bytes at
`src_offset` (alpha defaulting to 255 for 24-bit data), premultiply the
color channels (zero alpha yielding all-zero channels), and build the
premultiplied pixel.  All reads are at `src_offset ..
src_offset + bytes_per_pixel - 1`. -/
def decodeAt (pixel_data : List ℕ) (src_offset bytes_per_pixel : ℕ) :
    Option PremulColor :=
  let b_p := pixel_data.getD src_offset 0
  let g_p := pixel_data.getD (src_offset + 1) 0
  let r_p := pixel_data.getD (src_offset + 2) 0
  let a := if bytes_per_pixel = 4 then pixel_data.getD (src_offset + 3) 0 else 255
  let rgb : ℕ × ℕ × ℕ :=
    if 0 < a then (r_p * a / 255, g_p * a / 255, b_p * a / 255)
    else (0, 0, 0)
  premulFromRgba rgb.1 rgb.2.1 rgb.2.2 a

/-- Embedding of `draw_icon` (src/graphics/drawing.rs).  `pixel_data`
is the byte buffer (entries `< 256`; theorems assume this where it
matters).  `width.natAbs` models `biWidth.abs() as u32` (in release
mode `abs` wraps at `i32::MIN`, where it coincides with `natAbs`).  The
`usize → u32` cast of the stride and the `u32` multiplications and
additions wrap, hence the explicit `% U32`.  `Pixmap::new(width,height)`
is modelled as succeeding for nonzero sizes (on a 64-bit host its
internal size computation cannot overflow), so its fallback placeholder
branch is not represented. -/
def draw_icon (icon_info : BitmapHeader) (pixel_data : List ℕ)
    (expected_size : ℕ) : IconDraw :=
  let width := icon_info.biWidth.natAbs
  let height := icon_info.biHeight.natAbs
  let is_top_down := icon_info.biHeight < 0
  let bpp := icon_info.biBitCount
  if width = 0 ∨ height = 0 ∨ (bpp ≠ 32 ∧ bpp ≠ 24) ∨ icon_info.biCompression ≠ 0
  then
    IconDraw.placeholder expected_size expected_size
  else
    let bytes_per_pixel := bpp / 8
    let stride := (4 * ((width * bytes_per_pixel + 3) / 4)) % U32
    let expected_data_size := (stride * height) % U32
    if pixel_data.length < expected_data_size then
      IconDraw.placeholder expected_size expected_size
    else
      IconDraw.icon width height (fun x_dest y_dest =>
        let src_row_index := if is_top_down then y_dest else height - 1 - y_dest
        let src_offset := (src_row_index * stride + x_dest * bytes_per_pixel) % U32
        if pixel_data.length < src_offset + bytes_per_pixel then none
        else decodeAt pixel_data src_offset bytes_per_pixel)

/-- Mathematical (non-wrapping) stride of the claims:
`ceil(width * bytesPerPixel / 4) * 4`. -/
def strideOf (width bytes_per_pixel : ℕ) : ℕ :=
  4 * ((width * bytes_per_pixel + 3) / 4)

/-- Modelled from the spec (§4.3 steps 3–4): the value of destination
pixel `(x,y)` for a valid bitmap — source row `y` if top-down else
`height−1−y`, bytes `B,G,R[,A]` at `row*stride + x*bytesPerPixel`,
alpha defaulting to 255 at 24-bit, output premultiplied as
`RGB = sourceRGB * alpha / 255`. -/
def specDecodedPixel (icon_info : BitmapHeader) (pixel_data : List ℕ)
    (x y : ℕ) : PremulColor :=
  let height := icon_info.biHeight.natAbs
  let bytes_per_pixel := icon_info.biBitCount / 8
  let stride := strideOf icon_info.biWidth.natAbs bytes_per_pixel
  let row := if icon_info.biHeight < 0 then y else height - 1 - y
  let off := row * stride + x * bytes_per_pixel
  let b := pixel_data.getD off 0
  let g := pixel_data.getD (off + 1) 0
  let r := pixel_data.getD (off + 2) 0
  let a := if bytes_per_pixel = 4 then pixel_data.getD (off + 3) 0 else 255
  ⟨r * a / 255, g * a / 255, b * a / 255, a⟩

/-- Embedding of the per-pixel conversion in `MyGraphics::draw_finish`
(src/graphics/graphics.rs lines 591–616): pack the RGBA bytes of one
pixmap pixel into the surface's `u32` as `(a << 24) | (r << 16) |
(g << 8) | b`. -/
def draw_finish_pixel (r g b a : ℕ) : ℕ :=
  (a <<< 24) ||| (r <<< 16) ||| (g <<< 8) ||| b

/-- Modelled from the spec (§4.5 Finish): convert one premultiplied
pixel to straight alpha — divide the color channels by alpha, clamp,
special-case zero alpha — and pack in the same channel order. -/
def spec_finish_pixel (r g b a : ℕ) : ℕ :=
  if a = 0 then 0
  else (a <<< 24) ||| (min 255 (r * 255 / a) <<< 16) |||
    (min 255 (g * 255 / a) <<< 8) ||| min 255 (b * 255 / a)

/-- Concrete font with two defined glyphs (`'a'`, code 97, and `'.'`,
code 46), unit advances and no kerning; used to exercise the
truncation theorems. -/
def constFont : FontModel :=
  ⟨fun c => if c.toNat = 97 then 1 else if c.toNat = 46 then 2 else 0,
   fun _ => 1,
   fun _ _ => 0⟩

/-- Concrete font like `constFont` but with a large positive kerning
between `'a'` and `'.'`; exhibits the unaccounted kerning at the
truncation/ellipsis junction. -/
def bigKernFont : FontModel :=
  ⟨fun c => if c.toNat = 97 then 1 else if c.toNat = 46 then 2 else 0,
   fun _ => 1,
   fun i j => if i = 1 ∧ j = 2 then 1000 else 0⟩

/-- C5: for every window width (including 0) and scaled metrics with a
positive item width, `calculate_internal_layout` returns
`items_per_row = max 1 ⌊(windowWidth − padding) / itemWidth⌋` with
`itemWidth = iconSize×2 + padding`; `items_per_row ≥ 1` holds
unconditionally; and windowWidth = 300, iconSize = 48, padding = 10
give itemWidth = 106 and items_per_row = 2. -/
theorem calculate_internal_layout_spec :
    (∀ (w : ℕ) (icon p pui th : ℚ), 0 < icon * 2 + p →
      ((calculate_internal_layout w icon p pui th).1 : ℤ) =
        max 1 ⌊((w : ℚ) - p) / (icon * 2 + p)⌋) ∧
    (∀ (w : ℕ) (icon p pui th : ℚ),
      1 ≤ (calculate_internal_layout w icon p pui th).1) ∧
    (calculate_internal_layout 300 48 10 2 16).2.2.1 = 106 ∧
    (calculate_internal_layout 300 48 10 2 16).1 = 2 := by
  refine ⟨?_, ?_, ?_, ?_⟩
  · intro w icon p pui th h
    simp only [calculate_internal_layout, if_pos h]
    exact Int.toNat_of_nonneg (le_trans (by norm_num) (le_max_left 1 _))
  · intro w icon p pui th
    simp only [calculate_internal_layout]
    split
    · have h1 : (1 : ℤ) ≤ max 1 ⌊((w : ℚ) - p) / (icon * 2 + p)⌋ := le_max_left 1 _
      omega
    · exact le_refl 1
  · norm_num [calculate_internal_layout]
  · simp only [calculate_internal_layout]
    rw [if_pos (by norm_num : (0 : ℚ) < 48 * 2 + 10)]
    have hfl : ⌊(((300 : ℕ) : ℚ) - 10) / (48 * 2 + 10)⌋ = 2 := by
      rw [Int.floor_eq_iff]
      norm_num
    rw [hfl]
    norm_num
    rfl

/-- Witness for `calculate_internal_layout_spec` at windowWidth = 300,
iconSize = 48, padding = 10. -/
theorem calculate_internal_layout_spec_witness :
    (0 : ℚ) < 48 * 2 + 10 ∧
    ((calculate_internal_layout 300 48 10 2 16).1 : ℤ) =
      max 1 ⌊((300 : ℚ) - 10) / (48 * 2 + 10)⌋ :=
  ⟨by norm_num, calculate_internal_layout_spec.1 300 48 10 2 16 (by norm_num)⟩

/-- C9: `get_item_rect_f32` returns `none` whenever the width, height or
`items_per_row` is 0, and otherwise returns the rectangle at column
`index % items_per_row`, row `index / items_per_row`, with origin
`(col*itemWidth + padding, row*itemHeight + padding)` shifted up by the
selection inset, width `itemWidth − padding` and height
`itemHeight − padding + 2*inset`. -/
theorem get_item_rect_f32_spec :
    (∀ (index w h ipr : ℕ) (iw ih p inset : ℚ), w = 0 ∨ h = 0 ∨ ipr = 0 →
      get_item_rect_f32 index w h ipr iw ih p inset = none) ∧
    (∀ (index w h ipr : ℕ) (iw ih p inset : ℚ), w ≠ 0 → h ≠ 0 → ipr ≠ 0 →
      get_item_rect_f32 index w h ipr iw ih p inset =
        TsRect.fromXywh (((index % ipr : ℕ) : ℚ) * iw + p)
          (((index / ipr : ℕ) : ℚ) * ih + p - inset) (iw - p)
          (ih - p + inset * 2)) := by
  constructor
  · intro index w h ipr iw ih p inset hc
    simp only [get_item_rect_f32, if_pos hc]
  · intro index w h ipr iw ih p inset hw hh hi
    simp only [get_item_rect_f32]
    rw [if_neg (by tauto)]

/-- Witness for `get_item_rect_f32_spec` at index 5 in a 3-wide grid. -/
theorem get_item_rect_f32_spec_witness :
    get_item_rect_f32 5 300 200 3 106 76 10 3 =
      TsRect.fromXywh (((5 % 3 : ℕ) : ℚ) * 106 + 10)
        (((5 / 3 : ℕ) : ℚ) * 76 + 10 - 3) (106 - 10) (76 - 10 + 3 * 2) :=
  get_item_rect_f32_spec.2 5 300 200 3 106 76 10 3 (by decide) (by decide)
    (by decide)

/-- C10: `get_contrasting_text_color` always returns opaque black or
opaque white, black exactly when the WCAG relative luminance of the
background exceeds 0.22 (for every model `pw` of `powf(2.4)`). -/
theorem get_contrasting_text_color_spec :
    ∀ (pw : ℚ → ℚ) (bg : TsColor),
      (get_contrasting_text_color pw bg = TsColor.fromRgba8 0 0 0 255 ∨
        get_contrasting_text_color pw bg = TsColor.fromRgba8 255 255 255 255) ∧
      (get_contrasting_text_color pw bg = TsColor.fromRgba8 0 0 0 255 ↔
        22 / 100 < wcagLuminance pw bg) := by
  intro pw bg
  have hne : TsColor.fromRgba8 255 255 255 255 ≠ TsColor.fromRgba8 0 0 0 255 := by
    simp only [TsColor.fromRgba8, ne_eq, TsColor.mk.injEq]
    norm_num
  simp only [get_contrasting_text_color]
  by_cases h : 22 / 100 < wcagLuminance pw bg
  · rw [if_pos h]
    exact ⟨Or.inl rfl, ⟨fun _ => h, fun _ => rfl⟩⟩
  · rw [if_neg h]
    exact ⟨Or.inr rfl, ⟨fun hc => absurd hc hne, fun hl => absurd hl h⟩⟩

/-- C7: `set_background_color` keeps both stored colors and only logs a
warning when the color string does not parse; when it parses, the
background is updated (alpha-clamped) and the border color is
recomputed from the new background. -/
theorem set_background_color_spec :
    ∀ (st : WindowColors) (hash : ℕ) (s : List Char),
      (parse_color s = none →
        set_background_color st hash s = (st, LogLevel.warn)) ∧
      (∀ c, parse_color s = some c →
        set_background_color st hash s =
          (⟨clamp_alpha c, clamp_alpha (calculate_border_color c hash)⟩,
            LogLevel.debug)) := by
  intro st hash s
  constructor
  · intro h
    simp only [set_background_color, h]
  · intro c h
    simp only [set_background_color, h]

/-- Witness for `set_background_color_spec`: the unparsable string
`"xyz"` leaves the state unchanged and warns. -/
theorem set_background_color_spec_witness :
    set_background_color
        ⟨TsColor.fromRgba8 1 2 3 4, TsColor.fromRgba8 5 6 7 8⟩ 0
        ("xyz".toList) =
      (⟨TsColor.fromRgba8 1 2 3 4, TsColor.fromRgba8 5 6 7 8⟩, LogLevel.warn) :=
  (set_background_color_spec ⟨TsColor.fromRgba8 1 2 3 4,
    TsColor.fromRgba8 5 6 7 8⟩ 0 ("xyz".toList)).1 (by decide)

/-- C8: `calculate_border_color` is a pure function of the background
color and the id-string hash; the derived HSL value has hue equal to
the background hue rotated 180° and then shifted by
`(hash % 21) − 10 ∈ [−10,10]`, lightness capped at 40 when the
background lightness exceeds 50 and floored at 60 otherwise,
saturation floored at 30; and the returned color is fully opaque. -/
theorem calculate_border_color_spec :
    ∀ (bg : TsColor) (hash : ℕ),
      (∀ (bg' : TsColor) (hash' : ℕ), bg = bg' → hash = hash' →
        calculate_border_color bg hash = calculate_border_color bg' hash') ∧
      (border_hsl bg hash).h =
        qmod (qmod ((rgbToHsl ⟨bg.r * 255, bg.g * 255, bg.b * 255⟩).h + 180) 360 +
          (((hash % 21 : ℕ) : ℚ) - 10) + 360) 360 ∧
      (-10 ≤ ((hash % 21 : ℕ) : ℚ) - 10 ∧ ((hash % 21 : ℕ) : ℚ) - 10 ≤ 10) ∧
      (50 < (rgbToHsl ⟨bg.r * 255, bg.g * 255, bg.b * 255⟩).l →
        (border_hsl bg hash).l ≤ 40) ∧
      ((rgbToHsl ⟨bg.r * 255, bg.g * 255, bg.b * 255⟩).l ≤ 50 →
        60 ≤ (border_hsl bg hash).l) ∧
      30 ≤ (border_hsl bg hash).s ∧
      (calculate_border_color bg hash).a = 1 := by
  intro bg hash
  refine ⟨?_, ?_, ⟨?_, ?_⟩, ?_, ?_, ?_, ?_⟩
  · rintro bg' hash' rfl rfl; rfl
  · rfl
  · have h0 : (0 : ℚ) ≤ ((hash % 21 : ℕ) : ℚ) := Nat.cast_nonneg _
    linarith
  · have h20 : hash % 21 ≤ 20 := by omega
    have h20q : ((hash % 21 : ℕ) : ℚ) ≤ 20 := by exact_mod_cast h20
    linarith
  · intro h
    simp only [border_hsl]
    rw [if_pos h]
    exact min_le_right _ _
  · intro h
    simp only [border_hsl]
    rw [if_neg (not_lt.mpr h)]
    exact le_max_right _ _
  · simp only [border_hsl]
    exact le_max_right _ _
  · simp only [calculate_border_color, TsColor.fromRgba8]
    norm_num

/-- Witness for `calculate_border_color_spec` at a concrete dark
background and hash. -/
theorem calculate_border_color_spec_witness :
    calculate_border_color (TsColor.fromRgba8 0 0 0 255) 7 =
      calculate_border_color (TsColor.fromRgba8 0 0 0 255) 7 ∧
    60 ≤ (border_hsl (TsColor.fromRgba8 0 0 0 255) 7).l :=
  ⟨(calculate_border_color_spec (TsColor.fromRgba8 0 0 0 255) 7).1
      (TsColor.fromRgba8 0 0 0 255) 7 rfl rfl,
   (calculate_border_color_spec (TsColor.fromRgba8 0 0 0 255) 7).2.2.2.2.1
      (by norm_num [rgbToHsl, TsColor.fromRgba8])⟩

/-- Auxiliary: bitwise or of a left-shifted value with a value that
fits entirely below the shift is plain addition. -/
theorem shiftLeft_lor_eq_add (k : ℕ) :
    ∀ (a b : ℕ), b < 2 ^ k → (a <<< k) ||| b = a * 2 ^ k + b := by
  induction k with
  | zero =>
      intro a b hb
      interval_cases b
      simp [Nat.shiftLeft_eq]
  | succ n ih =>
      intro a b hb
      have hsplit : Nat.bit (decide (b % 2 = 1)) (b >>> 1) = b :=
        Nat.bit_decide_mod_two_eq_one_shiftRight_one b
      have h1 : a <<< (n + 1) = Nat.bit false (a <<< n) := by
        rw [Nat.shiftLeft_succ, Nat.bit_val]
        simp
      have hp : (2 : ℕ) ^ (n + 1) = 2 * 2 ^ n := by ring
      have hb2 : b >>> 1 < 2 ^ n := by
        rw [Nat.shiftRight_one]
        omega
      calc (a <<< (n + 1)) ||| b
          = Nat.bit false (a <<< n) ||| Nat.bit (decide (b % 2 = 1)) (b >>> 1) := by
            rw [h1, hsplit]
        _ = Nat.bit (false || decide (b % 2 = 1)) ((a <<< n) ||| (b >>> 1)) :=
            Nat.lor_bit false (a <<< n) (decide (b % 2 = 1)) (b >>> 1)
        _ = 2 * (a * 2 ^ n + b >>> 1) + (decide (b % 2 = 1)).toNat := by
            rw [Nat.bit_val, ih _ _ hb2, Bool.false_or]
        _ = a * 2 ^ (n + 1) + b := by
            have hd : (decide (b % 2 = 1)).toNat = b % 2 := by
              rcases Nat.mod_two_eq_zero_or_one b with h | h <;> simp [h]
            have hmul : a * 2 ^ (n + 1) = 2 * (a * 2 ^ n) := by ring
            rw [hd, Nat.shiftRight_one, hmul]
            omega

/-- C2 (amended): the finish-step conversion packs each premultiplied
pixel's bytes unchanged into the surface's `0xAARRGGBB` word — it does
not divide by alpha — and because premultiplied and straight
representations coincide at full alpha, reading the channels back from
the packed word of an opaque pixel returns exactly the painted RGB. -/
theorem draw_finish_pixel_spec :
    ∀ r g b a : ℕ, r < 256 → g < 256 → b < 256 → a < 256 →
      (draw_finish_pixel r g b a = a * 2 ^ 24 + r * 2 ^ 16 + g * 2 ^ 8 + b ∧
       draw_finish_pixel r g b 255 / 2 ^ 16 % 256 = r ∧
       draw_finish_pixel r g b 255 / 2 ^ 8 % 256 = g ∧
       draw_finish_pixel r g b 255 % 256 = b) := by
  have key : ∀ r' g' b' a' : ℕ, r' < 256 → g' < 256 → b' < 256 → a' < 256 →
      draw_finish_pixel r' g' b' a' = a' * 2 ^ 24 + r' * 2 ^ 16 + g' * 2 ^ 8 + b' := by
    intro r' g' b' a' hr' hg' hb' ha'
    unfold draw_finish_pixel
    rw [Nat.lor_assoc, Nat.lor_assoc]
    rw [shiftLeft_lor_eq_add 8 g' b' (by omega)]
    rw [shiftLeft_lor_eq_add 16 r' _ (by norm_num; omega)]
    rw [shiftLeft_lor_eq_add 24 a' _ (by norm_num; omega)]
    ring
  intro r g b a hr hg hb ha
  refine ⟨key r g b a hr hg hb ha, ?_, ?_, ?_⟩ <;>
    rw [key r g b 255 hr hg hb (by norm_num)] <;> norm_num <;> omega

/-- Witness for `draw_finish_pixel_spec` at the opaque pixel
(10, 20, 30, 255). -/
theorem draw_finish_pixel_spec_witness :
    draw_finish_pixel 10 20 30 255 = 255 * 2 ^ 24 + 10 * 2 ^ 16 + 20 * 2 ^ 8 + 30 ∧
    draw_finish_pixel 10 20 30 255 / 2 ^ 16 % 256 = 10 ∧
    draw_finish_pixel 10 20 30 255 / 2 ^ 8 % 256 = 20 ∧
    draw_finish_pixel 10 20 30 255 % 256 = 30 :=
  draw_finish_pixel_spec 10 20 30 255 (by norm_num) (by norm_num) (by norm_num)
    (by norm_num)

/-- C2 (counterexample): at the premultiplied pixel (100,100,100,128)
the source's finish conversion does not perform the straight-alpha
division the claim describes. -/
theorem draw_finish_pixel_counterexample :
    draw_finish_pixel 100 100 100 128 ≠ spec_finish_pixel 100 100 100 128 := by
  decide

/-- Auxiliary: a hex digit value is below 16. -/
theorem hexDigitVal_lt_16 {c : Char} {d : ℕ} (h : hexDigitVal c = some d) :
    d < 16 := by
  simp only [hexDigitVal] at h
  split_ifs at h with h1 h2 h3 <;> simp_all <;> omega

/-- Auxiliary: the digit fold propagates failure. -/
theorem foldl_hexFoldStep_none (l : List Char) :
    l.foldl hexFoldStep none = none := by
  induction l with
  | nil => rfl
  | cons c rest ih => rw [List.foldl_cons]; exact ih

/-- Auxiliary: a successful digit fold stays below 256. -/
theorem foldl_hexFoldStep_le :
    ∀ (l : List Char) (acc : Option ℕ),
      (∀ m, acc = some m → m ≤ 255) →
      ∀ n, l.foldl hexFoldStep acc = some n → n ≤ 255 := by
  intro l
  induction l with
  | nil => intro acc hacc n h; exact hacc n h
  | cons c rest ih =>
      intro acc hacc n h
      rw [List.foldl_cons] at h
      refine ih (hexFoldStep acc c) ?_ n h
      intro m hm
      cases acc with
      | none => simp [hexFoldStep] at hm
      | some a =>
          cases hd : hexDigitVal c with
          | none => simp [hexFoldStep, hd] at hm
          | some d =>
              have hm' : (if a * 16 + d ≤ 255 then some (a * 16 + d) else none) =
                  some m := by simpa [hexFoldStep, hd] using hm
              split at hm'
              · simp only [Option.some.injEq] at hm'
                omega
              · simp at hm'

/-- Auxiliary: `u8::from_str_radix` never returns a value above 255. -/
theorem fromStrRadix16U8_le {s : List Char} {n : ℕ}
    (h : fromStrRadix16U8 s = some n) : n ≤ 255 := by
  have base : ∀ t : List Char, fromHexDigitsU8 t = some n → n ≤ 255 := by
    intro t ht
    unfold fromHexDigitsU8 at ht
    split at ht
    · simp at ht
    · exact foldl_hexFoldStep_le t (some 0) (by intro m hm; simp at hm; omega) n ht
  cases s with
  | nil => exact base [] h
  | cons c rest =>
      simp only [fromStrRadix16U8] at h
      split at h
      · exact base rest h
      · exact base (c :: rest) h

/-- Auxiliary: on a two-character group, `u8::from_str_radix` succeeds
exactly on the `hexPairAccepted` shapes. -/
theorem fromStrRadix16U8_pair (c1 c2 : Char) :
    (fromStrRadix16U8 [c1, c2]).isSome = hexPairAccepted [c1, c2] := by
  have hplus : hexDigitVal '+' = none := by decide
  show (if c1 = '+' then fromHexDigitsU8 [c2]
    else fromHexDigitsU8 [c1, c2]).isSome = _
  by_cases h : c1 = '+'
  · subst h
    rw [if_pos rfl]
    cases h2 : hexDigitVal c2 with
    | none => simp [fromHexDigitsU8, hexFoldStep, hexPairAccepted, hplus, h2]
    | some d =>
        have hd := hexDigitVal_lt_16 h2
        simp only [fromHexDigitsU8, hexFoldStep, List.foldl_cons, List.foldl_nil,
          hexPairAccepted, hplus, h2]
        simp [Nat.zero_mul, Nat.zero_add, if_pos (by omega : d ≤ 255)]
  · rw [if_neg h]
    cases h1 : hexDigitVal c1 with
    | none => simp [fromHexDigitsU8, hexFoldStep, hexPairAccepted, h, h1]
    | some d1 =>
        have hd1 := hexDigitVal_lt_16 h1
        have e1 : d1 ≤ 255 := by omega
        cases h2 : hexDigitVal c2 with
        | none =>
            simp [fromHexDigitsU8, hexFoldStep, hexPairAccepted, h, h1, h2, e1]
        | some d2 =>
            have hd2 := hexDigitVal_lt_16 h2
            have e2 : d1 * 16 + d2 ≤ 255 := by omega
            simp [fromHexDigitsU8, hexFoldStep, hexPairAccepted, h, h1, h2, e1, e2]

/-- Auxiliary: an uppercase hex digit character parses back to its
value (and is not a sign character). -/
theorem hexDigitVal_hexChar {d : ℕ} (h : d < 16) :
    hexDigitVal (hexChar d) = some d ∧ hexChar d ≠ '+' := by
  interval_cases d <;> exact ⟨by decide, by decide⟩

/-- Auxiliary: a formatted byte parses back to itself. -/
theorem fromStrRadix16U8_toHexPair {n : ℕ} (h : n ≤ 255) :
    fromStrRadix16U8 (toHexPair n) = some n := by
  have hq : n / 16 % 16 = n / 16 := by omega
  have h1 : n / 16 < 16 := by omega
  have h2 : n % 16 < 16 := by omega
  obtain ⟨hv1, hp1⟩ := hexDigitVal_hexChar h1
  obtain ⟨hv2, hp2⟩ := hexDigitVal_hexChar h2
  have e1 : n / 16 ≤ 255 := by omega
  have e2 : n / 16 * 16 + n % 16 ≤ 255 := by omega
  have hsum : n / 16 * 16 + n % 16 = n := by omega
  show (if hexChar (n / 16 % 16) = '+' then _ else _) = _
  rw [hq, if_neg hp1]
  simp [fromHexDigitsU8, hexFoldStep, hv1, hv2, e1, e2, hsum, h]

/-- Auxiliary: formatting `(n/255 : ℚ) * 255` with Rust `as u8`
recovers `n` for a byte value `n`. -/
theorem ratToU8_div_mul {n : ℕ} (h : n ≤ 255) :
    ratToU8 ((n : ℚ) / 255 * 255) = n := by
  have e : ((n : ℚ) / 255) * 255 = (n : ℚ) := by
    field_simp
  rw [ratToU8, e, Int.floor_natCast]
  simp [Nat.min_def]
  omega

/-- Auxiliary: a list of length 6 has exactly six elements. -/
theorem list_len_six {α : Type} {t : List α} (h : t.length = 6) :
    ∃ a b c d e f, t = [a, b, c, d, e, f] := by
  rcases t with _ | ⟨a, _ | ⟨b, _ | ⟨c, _ | ⟨d, _ | ⟨e, _ | ⟨f, _ | ⟨g, t⟩⟩⟩⟩⟩⟩⟩ <;>
    simp_all

/-- Auxiliary: a list of length 8 has exactly eight elements. -/
theorem list_len_eight {α : Type} {t : List α} (h : t.length = 8) :
    ∃ a b c d e f g i, t = [a, b, c, d, e, f, g, i] := by
  rcases t with _ | ⟨a, _ | ⟨b, _ | ⟨c, _ | ⟨d, _ | ⟨e, _ | ⟨f, _ | ⟨g,
    _ | ⟨i, _ | ⟨j, t⟩⟩⟩⟩⟩⟩⟩⟩⟩ <;> simp_all

/-- Auxiliary: `parse_color` succeeds exactly on the strings whose
shape is `parseColorAccepted`. -/
theorem parse_color_isSome (s : List Char) :
    (parse_color s).isSome = parseColorAccepted s := by
  unfold parse_color parseColorAccepted
  generalize stripHash s = t
  by_cases h6 : t.length = 6
  · obtain ⟨c1, c2, c3, c4, c5, c6, rfl⟩ := list_len_six h6
    have hFF : fromStrRadix16U8 ['F', 'F'] = some 255 := by decide
    cases h1 : fromStrRadix16U8 [c1, c2] <;>
      cases h2 : fromStrRadix16U8 [c3, c4] <;>
        cases h3 : fromStrRadix16U8 [c5, c6] <;>
          simp [h1, h2, h3, hFF, ← fromStrRadix16U8_pair, List.take, List.drop]
  · by_cases h8 : t.length = 8
    · obtain ⟨c1, c2, c3, c4, c5, c6, c7, c8, rfl⟩ := list_len_eight h8
      cases h1 : fromStrRadix16U8 [c1, c2] <;>
        cases h2 : fromStrRadix16U8 [c3, c4] <;>
          cases h3 : fromStrRadix16U8 [c5, c6] <;>
            cases h4 : fromStrRadix16U8 [c7, c8] <;>
              simp [h1, h2, h3, h4, ← fromStrRadix16U8_pair, List.take, List.drop]
    · simp [h6, h8]

/-- Auxiliary: every color produced by `parse_color` is built by
`TsColor.fromRgba8` from four byte values. -/
theorem parse_color_inv {s : List Char} {c : TsColor}
    (h : parse_color s = some c) :
    ∃ r g b a, r ≤ 255 ∧ g ≤ 255 ∧ b ≤ 255 ∧ a ≤ 255 ∧
      c = TsColor.fromRgba8 r g b a := by
  unfold parse_color at h
  have finish : ∀ (rs gs bs as_ : List Char),
      ((fromStrRadix16U8 rs).bind fun r =>
        (fromStrRadix16U8 gs).bind fun g =>
          (fromStrRadix16U8 bs).bind fun b =>
            (fromStrRadix16U8 as_).bind fun a =>
              some (TsColor.fromRgba8 r g b a)) = some c →
      ∃ r g b a, r ≤ 255 ∧ g ≤ 255 ∧ b ≤ 255 ∧ a ≤ 255 ∧
        c = TsColor.fromRgba8 r g b a := by
    intro rs gs bs as_ hh
    simp only [Option.bind_eq_some] at hh
    obtain ⟨r, hr, g, hg, b, hb, a, ha, hc⟩ := hh
    simp only [Option.some.injEq] at hc
    exact ⟨r, g, b, a, fromStrRadix16U8_le hr, fromStrRadix16U8_le hg,
      fromStrRadix16U8_le hb, fromStrRadix16U8_le ha, hc.symm⟩
  by_cases h6 : (stripHash s).length = 6
  · rw [if_pos h6, Option.bind_eq_bind', Option.some_bind'] at h
    exact finish _ _ _ _ (by simpa using h)
  · by_cases h8 : (stripHash s).length = 8
    · rw [if_neg h6, if_pos h8, Option.bind_eq_bind', Option.some_bind'] at h
      exact finish _ _ _ _ (by simpa using h)
    · rw [if_neg h6, if_neg h8] at h
      simp at h

/-- Auxiliary: parsing the formatted rendering of a parsed color gives
back the same color. -/
theorem parse_color_roundtrip {s : List Char} {c : TsColor}
    (h : parse_color s = some c) :
    parse_color (color_to_hex_string c) = some c := by
  obtain ⟨r, g, b, a, hr, hg, hb, ha, rfl⟩ := parse_color_inv h
  have hhex : color_to_hex_string (TsColor.fromRgba8 r g b a) =
      '#' :: (toHexPair r ++ toHexPair g ++ toHexPair b ++ toHexPair a) := by
    simp only [color_to_hex_string, TsColor.fromRgba8]
    rw [ratToU8_div_mul hr, ratToU8_div_mul hg, ratToU8_div_mul hb,
      ratToU8_div_mul ha]
  rw [hhex]
  unfold parse_color
  have hstrip : stripHash ('#' :: (toHexPair r ++ toHexPair g ++ toHexPair b ++
      toHexPair a)) = toHexPair r ++ toHexPair g ++ toHexPair b ++ toHexPair a :=
    rfl
  rw [hstrip]
  simp only [toHexPair, List.cons_append, List.nil_append, List.length_cons,
    List.length_nil, List.take, List.drop]
  norm_num
  rw [show fromStrRadix16U8 [hexChar (r / 16 % 16), hexChar (r % 16)] = some r
      from fromStrRadix16U8_toHexPair hr,
    show fromStrRadix16U8 [hexChar (g / 16 % 16), hexChar (g % 16)] = some g
      from fromStrRadix16U8_toHexPair hg,
    show fromStrRadix16U8 [hexChar (b / 16 % 16), hexChar (b % 16)] = some b
      from fromStrRadix16U8_toHexPair hb,
    show fromStrRadix16U8 [hexChar (a / 16 % 16), hexChar (a % 16)] = some a
      from fromStrRadix16U8_toHexPair ha]
  rfl

/-- C6 (counterexample): `parse_color` also accepts 2-character groups
with a leading `'+'` (inherited from `u8::from_str_radix`), so
`"+000FF"` — which contains the non-hex character `'+'` — parses
successfully instead of yielding `None` as the claim states. -/
theorem parse_color_counterexample :
    parse_color ("+000FF".toList) = some (TsColor.fromRgba8 0 0 255 255) ∧
    hexDigitVal '+' = none := by
  exact ⟨rfl, rfl⟩

/-- C6 (amended): `parse_color` accepts exactly the strings that, after
an optional leading `'#'`, have 6 or 8 characters forming 2-character
groups each accepted by `u8::from_str_radix(_, 16)` (two hex digits, or
a `'+'` followed by one hex digit), a 6-character string getting opaque
alpha; every other string yields `None`; parse → format → parse
round-trips; and `parse_color "0000FF80"` is RGBA(0,0,255,128) while
`parse_color "#123"` is `None`. -/
theorem parse_color_spec :
    (∀ s : List Char, (parse_color s).isSome = parseColorAccepted s) ∧
    (∀ (s : List Char) (c : TsColor), parse_color s = some c →
      parse_color (color_to_hex_string c) = some c) ∧
    parse_color ("0000FF80".toList) = some (TsColor.fromRgba8 0 0 255 128) ∧
    parse_color ("#123".toList) = none := by
  refine ⟨parse_color_isSome, ?_, rfl, rfl⟩
  intro s c h
  exact parse_color_roundtrip h

/-- Witness for `parse_color_spec`: the example string round-trips. -/
theorem parse_color_spec_witness :
    parse_color ("0000FF80".toList) = some (TsColor.fromRgba8 0 0 255 128) ∧
    parse_color (color_to_hex_string (TsColor.fromRgba8 0 0 255 128)) =
      some (TsColor.fromRgba8 0 0 255 128) :=
  ⟨parse_color_spec.2.2.1,
   parse_color_spec.2.1 ("0000FF80".toList) (TsColor.fromRgba8 0 0 255 128)
     parse_color_spec.2.2.1⟩

/-- Auxiliary: taking at most the first part of an append stays in it. -/
theorem take_append_le {α : Type} {l1 l2 : List α} {n : ℕ}
    (h : n ≤ l1.length) : (l1 ++ l2).take n = l1.take n := by
  rw [List.take_append_eq_append_take, Nat.sub_eq_zero_of_le h]
  simp

/-- Auxiliary: the width loop adds onto its accumulator. -/
theorem ctwLoop_eq (f : FontModel) :
    ∀ (l : List Char) (total : ℚ) (last : Option ℕ),
      ctwLoop f l total last = total + ctwFrom f l last := by
  intro l
  induction l with
  | nil => intro total last; simp [ctwLoop, ctwFrom]
  | cons c rest ih =>
      intro total last
      simp only [ctwLoop, ctwFrom]
      by_cases h : f.glyphId c = 0
      · rw [if_pos h, if_pos h, ih]
      · rw [if_neg h, if_neg h, ih]
        ring

/-- Auxiliary: the last defined glyph of an append. -/
theorem lastGidFrom_append (f : FontModel) :
    ∀ (xs ys : List Char) (last : Option ℕ),
      lastGidFrom f (xs ++ ys) last = lastGidFrom f ys (lastGidFrom f xs last) := by
  intro xs
  induction xs with
  | nil => intro ys last; rfl
  | cons c rest ih =>
      intro ys last
      simp only [List.cons_append, lastGidFrom, List.append_eq]
      by_cases h : f.glyphId c = 0
      · rw [if_pos h, if_pos h, ih]
      · rw [if_neg h, if_neg h, ih]

/-- Auxiliary: context-passing width of an append. -/
theorem ctwFrom_append (f : FontModel) :
    ∀ (xs ys : List Char) (last : Option ℕ),
      ctwFrom f (xs ++ ys) last =
        ctwFrom f xs last + ctwFrom f ys (lastGidFrom f xs last) := by
  intro xs
  induction xs with
  | nil => intro ys last; simp [ctwFrom, lastGidFrom]
  | cons c rest ih =>
      intro ys last
      simp only [List.cons_append, ctwFrom, lastGidFrom, List.append_eq]
      by_cases h : f.glyphId c = 0
      · rw [if_pos h, if_pos h, if_pos h, ih]
      · rw [if_neg h, if_neg h, if_neg h, ih]
        ring

/-- Auxiliary: the only effect of a previous glyph on a piece of text's
width is one kerning adjustment against its first defined glyph. -/
theorem ctwFrom_some (f : FontModel) :
    ∀ (ys : List Char) (g0 : ℕ),
      ctwFrom f ys (some g0) =
        ctwFrom f ys none +
          (match firstGid f ys with
           | some g1 => f.kern g0 g1
           | none => 0) := by
  intro ys
  induction ys with
  | nil => intro g0; simp [ctwFrom, firstGid]
  | cons c rest ih =>
      intro g0
      simp only [ctwFrom, firstGid]
      by_cases h : f.glyphId c = 0
      · rw [if_pos h, if_pos h, if_pos h, ih]
      · rw [if_neg h, if_neg h, if_neg h]
        simp only [kernOpt]
        ring

/-- Auxiliary: text width of a concatenation is the sum of the widths
plus the junction kerning. -/
theorem calculate_text_width_append (f : FontModel) (pre post : List Char) :
    calculate_text_width f (pre ++ post) =
      calculate_text_width f pre + junctionKern f pre post +
        calculate_text_width f post := by
  simp only [calculate_text_width, ctwLoop_eq, zero_add]
  rw [ctwFrom_append]
  cases hl : lastGidFrom f pre none with
  | none => simp [junctionKern, hl]
  | some g0 =>
      rw [ctwFrom_some]
      simp only [junctionKern, hl]
      cases hf : firstGid f post
      · simp [hf]
      · simp [hf]
        ring

/-- Auxiliary: the truncation loop of `draw_text` returns a cut length
whose prefix never exceeds the target width.  `done` is the already
processed prefix, `kept` the current `truncated_len`; the processed
characters beyond `kept` all have undefined glyphs, so that the loop's
accumulator equals the width of both `done` and its kept prefix. -/
theorem truncLen_bound (f : FontModel) (target : ℚ) :
    ∀ (rest done : List Char) (kept : ℕ),
      kept ≤ done.length →
      calculate_text_width f (done.take kept) = calculate_text_width f done →
      lastGidFrom f (done.take kept) none = lastGidFrom f done none →
      calculate_text_width f done ≤ target →
      truncLen f target rest (calculate_text_width f done)
          (lastGidFrom f done none) done.length kept ≤ (done ++ rest).length ∧
      calculate_text_width f
          ((done ++ rest).take
            (truncLen f target rest (calculate_text_width f done)
              (lastGidFrom f done none) done.length kept)) ≤ target := by
  intro rest
  induction rest with
  | nil =>
      intro done kept hk hw _hl ht
      simp only [truncLen, List.append_nil, List.length_append]
      refine ⟨by omega, ?_⟩
      rw [hw]
      exact ht
  | cons c rest ih =>
      intro done kept hk hw hl ht
      simp only [truncLen]
      by_cases h0 : f.glyphId c = 0
      · rw [if_pos h0]
        have hw1 : calculate_text_width f [c] = 0 := by
          simp [calculate_text_width, ctwLoop, h0]
        have hj1 : junctionKern f done [c] = 0 := by
          cases hz : lastGidFrom f done none <;>
            simp [junctionKern, firstGid, h0, hz]
        have e1 : calculate_text_width f (done ++ [c]) =
            calculate_text_width f done := by
          rw [calculate_text_width_append, hw1, hj1]
          ring
        have e2 : lastGidFrom f (done ++ [c]) none = lastGidFrom f done none := by
          rw [lastGidFrom_append]
          simp [lastGidFrom, h0]
        have etake : (done ++ [c]).take kept = done.take kept :=
          take_append_le hk
        have := ih (done ++ [c]) kept
          (by simp; omega)
          (by rw [etake, e1, hw])
          (by rw [etake, e2, hl])
          (by rw [e1]; exact ht)
        rw [e1, e2] at this
        simpa [List.length_append] using this
      · rw [if_neg h0]
        set gid := f.glyphId c with hgid
        by_cases hfit : target < calculate_text_width f done +
            (f.advance gid + kernOpt f (lastGidFrom f done none) gid)
        · rw [if_pos hfit]
          refine ⟨by simp [List.length_append]; omega, ?_⟩
          rw [take_append_le (le_trans hk (by omega)), hw]
          exact ht
        · rw [if_neg hfit]
          have hw1 : calculate_text_width f [c] = f.advance gid := by
            simp [calculate_text_width, ctwLoop, h0, kernOpt]
          have hj1 : junctionKern f done [c] =
              kernOpt f (lastGidFrom f done none) gid := by
            cases hz : lastGidFrom f done none <;>
              simp [junctionKern, firstGid, h0, hz, kernOpt]
          have e1 : calculate_text_width f (done ++ [c]) =
              calculate_text_width f done +
                (f.advance gid + kernOpt f (lastGidFrom f done none) gid) := by
            rw [calculate_text_width_append, hw1, hj1]
            ring
          have e2 : lastGidFrom f (done ++ [c]) none = some gid := by
            rw [lastGidFrom_append]
            simp [lastGidFrom, h0]
          have etake : (done ++ [c]).take (done.length + 1) = done ++ [c] := by
            rw [show done.length + 1 = (done ++ [c]).length by simp]
            exact List.take_length _
          have := ih (done ++ [c]) (done.length + 1)
            (by simp)
            (by rw [etake])
            (by rw [etake])
            (by rw [e1]; exact le_of_not_lt hfit)
          rw [e1, e2] at this
          simpa [List.length_append] using this

/-- C4 (amended): the ellipsis truncation of `draw_text` leaves text
whose measured width is within `maxWidth` unchanged; draws the ellipsis
alone when `maxWidth` is at most the ellipsis width; and otherwise
greedily keeps characters while the running width stays within
`maxWidth − ellipsisWidth`, cuts at a whole-character boundary and
appends the ellipsis — the result's width can exceed `maxWidth` only by
the (positive part of the) kerning between the last kept glyph and the
ellipsis, and in particular never exceeds `maxWidth` when that kerning
is not positive. -/
theorem fit_with_ellipsis_spec :
    ∀ (f : FontModel) (text : List Char) (max_width : ℚ),
      (calculate_text_width f text ≤ max_width →
        fit_with_ellipsis f text max_width = text) ∧
      (max_width < calculate_text_width f text →
        max_width ≤ calculate_text_width f ellipsisChars →
        fit_with_ellipsis f text max_width = ellipsisChars) ∧
      (max_width < calculate_text_width f text →
        calculate_text_width f ellipsisChars < max_width →
        ∃ k, k ≤ text.length ∧
          fit_with_ellipsis f text max_width = text.take k ++ ellipsisChars ∧
          calculate_text_width f (fit_with_ellipsis f text max_width) ≤
            max_width + max 0 (junctionKern f (text.take k) ellipsisChars)) := by
  intro f text mw
  refine ⟨?_, ?_, ?_⟩
  · intro h
    simp only [fit_with_ellipsis]
    rw [if_neg (not_lt.mpr h)]
  · intro h1 h2
    simp only [fit_with_ellipsis]
    rw [if_pos h1, if_pos h2]
  · intro h1 h2
    simp only [fit_with_ellipsis]
    rw [if_pos h1, if_neg (not_le.mpr h2)]
    have e0 : calculate_text_width f ([] : List Char) = 0 := rfl
    have e1 : lastGidFrom f ([] : List Char) none = none := rfl
    have hbase : calculate_text_width f ([] : List Char) ≤
        mw - calculate_text_width f ellipsisChars := by
      rw [e0]
      linarith
    have hloop := truncLen_bound f (mw - calculate_text_width f ellipsisChars)
      text [] 0 (le_refl 0) rfl rfl hbase
    rw [e0, e1] at hloop
    simp only [List.nil_append, List.length_nil] at hloop
    refine ⟨truncLen f (mw - calculate_text_width f ellipsisChars) text 0 none 0 0,
      hloop.1, rfl, ?_⟩
    rw [calculate_text_width_append]
    have hj := le_max_right (0 : ℚ)
      (junctionKern f
        (text.take (truncLen f (mw - calculate_text_width f ellipsisChars)
          text 0 none 0 0)) ellipsisChars)
    linarith [hloop.2]

/-- Witness for `fit_with_ellipsis_spec`: with a unit-advance,
zero-kerning font and `maxWidth = 5`, the 8-character text is truncated
and the result stays within the bound. -/
theorem fit_with_ellipsis_spec_witness :
    ∃ k, k ≤ (List.replicate 8 'a').length ∧
      fit_with_ellipsis constFont (List.replicate 8 'a') 5 =
        (List.replicate 8 'a').take k ++ ellipsisChars ∧
      calculate_text_width constFont
          (fit_with_ellipsis constFont (List.replicate 8 'a') 5) ≤
        5 + max 0 (junctionKern constFont
          ((List.replicate 8 'a').take k) ellipsisChars) := by
  have hga : constFont.glyphId 'a' = 1 := rfl
  have hadv : ∀ g, constFont.advance g = 1 := fun _ => rfl
  have hk : ∀ i j, constFont.kern i j = 0 := fun _ _ => rfl
  have hgd : constFont.glyphId '.' = 2 := rfl
  have h1 : (5 : ℚ) < calculate_text_width constFont (List.replicate 8 'a') := by
    norm_num [calculate_text_width, ctwLoop, kernOpt, List.replicate, hga, hadv, hk]
  have h2 : calculate_text_width constFont ellipsisChars < 5 := by
    norm_num [calculate_text_width, ctwLoop, kernOpt, ellipsisChars, hgd, hadv, hk]
  exact (fit_with_ellipsis_spec constFont (List.replicate 8 'a') 5).2.2 h1 h2

/-- C4 (counterexample): with a font whose kerning between `'a'` and
`'.'` is 1000, truncating the 8-character text `"aaaaaaaa"` to
`maxWidth = 5` yields `"aa..."` whose measured width is 1005 — far wider
than `maxWidth`, because the loop never accounts for the kerning
between the kept text and the appended ellipsis. -/
theorem fit_with_ellipsis_counterexample :
    fit_with_ellipsis bigKernFont (List.replicate 8 'a') 5 =
      ['a', 'a', '.', '.', '.'] ∧
    calculate_text_width bigKernFont
      (fit_with_ellipsis bigKernFont (List.replicate 8 'a') 5) = 1005 ∧
    (5 : ℚ) < 1005 := by
  have hga : bigKernFont.glyphId 'a' = 1 := rfl
  have hgd : bigKernFont.glyphId '.' = 2 := rfl
  have hadv : ∀ g, bigKernFont.advance g = 1 := fun _ => rfl
  have hk11 : bigKernFont.kern 1 1 = 0 := rfl
  have hk12 : bigKernFont.kern 1 2 = 1000 := rfl
  have hk22 : bigKernFont.kern 2 2 = 0 := rfl
  have heq : fit_with_ellipsis bigKernFont (List.replicate 8 'a') 5 =
      ['a', 'a', '.', '.', '.'] := by
    norm_num [fit_with_ellipsis, calculate_text_width, ctwLoop, truncLen,
      kernOpt, ellipsisChars, List.replicate, List.take, hga, hgd, hadv,
      hk11, hk12, hk22]
  refine ⟨heq, ?_, by norm_num⟩
  rw [heq]
  norm_num [calculate_text_width, ctwLoop, kernOpt, hga, hgd, hadv,
    hk11, hk12, hk22]

/-- Auxiliary: reading inside a byte buffer yields a byte. -/
theorem getD_lt_256 {data : List ℕ} (hb : ∀ u ∈ data, u < 256) {i : ℕ}
    (hi : i < data.length) : data.getD i 0 < 256 := by
  rw [List.getD_eq_getElem?_getD, List.getElem?_eq_getElem hi]
  exact hb _ (List.getElem_mem hi)

/-- Auxiliary: a premultiplied channel value never exceeds the alpha. -/
theorem premul_channel_le {v a : ℕ} (hv : v < 256) : v * a / 255 ≤ a := by
  have h1 : v * a ≤ 255 * a := Nat.mul_le_mul_right a (by omega)
  have h2 : v * a / 255 ≤ 255 * a / 255 := Nat.div_le_div_right h1
  simpa [Nat.mul_div_cancel_left a (show 0 < 255 by norm_num)] using h2

/-- Auxiliary: every in-bounds pixel's first read offset plus the pixel
size stays within one full image. -/
theorem offset_bound {W H B S x row : ℕ} (hW : x < W) (hH : row < H)
    (hSB : W * B ≤ S) : row * S + x * B + B ≤ S * H := by
  obtain ⟨H2, rfl⟩ : ∃ H2, H = H2 + 1 := ⟨H - 1, by omega⟩
  have h1 : row * S ≤ H2 * S := Nat.mul_le_mul_right S (by omega)
  have h2 : (x + 1) * B ≤ W * B := Nat.mul_le_mul_right B (by omega)
  calc row * S + x * B + B = row * S + (x + 1) * B := by ring
    _ ≤ H2 * S + S := add_le_add h1 (le_trans h2 hSB)
    _ = S * (H2 + 1) := by ring

/-- C1 (amended): `draw_icon` never reads outside the supplied byte
buffer — every pixel of a decoded icon is either skipped or computed
from bytes at offsets that all lie inside the buffer — and it draws the
placeholder square at the caller-requested `expected_size` whenever
width = 0, height = 0, the bit depth is neither 24 nor 32, the
compression is not BI_RGB, or the buffer is shorter than stride×height
as the source computes it in wrapping 32-bit arithmetic (for
stride×height < 2^32 this is the mathematical stride×height); the
embedded decoder is a total function, so it cannot panic. -/
theorem draw_icon_safe :
    ∀ (icon_info : BitmapHeader) (pixel_data : List ℕ) (expected_size : ℕ),
      (icon_info.biWidth.natAbs = 0 ∨ icon_info.biHeight.natAbs = 0 ∨
        (icon_info.biBitCount ≠ 32 ∧ icon_info.biBitCount ≠ 24) ∨
        icon_info.biCompression ≠ 0 →
        draw_icon icon_info pixel_data expected_size =
          IconDraw.placeholder expected_size expected_size) ∧
      (pixel_data.length <
          ((4 * ((icon_info.biWidth.natAbs * (icon_info.biBitCount / 8) + 3) / 4))
              % U32 * icon_info.biHeight.natAbs) % U32 →
        draw_icon icon_info pixel_data expected_size =
          IconDraw.placeholder expected_size expected_size) ∧
      (∀ w h pix, draw_icon icon_info pixel_data expected_size =
          IconDraw.icon w h pix →
        ∀ x y, pix x y = none ∨
          ∃ off, off + icon_info.biBitCount / 8 ≤ pixel_data.length ∧
            pix x y = decodeAt pixel_data off (icon_info.biBitCount / 8)) := by
  intro hdr data es
  refine ⟨?_, ?_, ?_⟩
  · intro h
    simp only [draw_icon]
    rw [if_pos h]
  · intro h
    simp only [draw_icon]
    by_cases hrej : hdr.biWidth.natAbs = 0 ∨ hdr.biHeight.natAbs = 0 ∨
        (hdr.biBitCount ≠ 32 ∧ hdr.biBitCount ≠ 24) ∨ hdr.biCompression ≠ 0
    · rw [if_pos hrej]
    · rw [if_neg hrej, if_pos h]
  · intro w h pix hicon x y
    simp only [draw_icon] at hicon
    split at hicon
    · exact absurd hicon (by simp)
    · split at hicon
      · exact absurd hicon (by simp)
      · injection hicon with hw hh hp
        by_cases hg : data.length <
            ((if hdr.biHeight < 0 then y else hdr.biHeight.natAbs - 1 - y) *
                ((4 * ((hdr.biWidth.natAbs * (hdr.biBitCount / 8) + 3) / 4)) % U32) +
              x * (hdr.biBitCount / 8)) % U32 + hdr.biBitCount / 8
        · left
          rw [← hp]
          simp only [if_pos hg]
        · right
          refine ⟨((if hdr.biHeight < 0 then y else hdr.biHeight.natAbs - 1 - y) *
              ((4 * ((hdr.biWidth.natAbs * (hdr.biBitCount / 8) + 3) / 4)) % U32) +
            x * (hdr.biBitCount / 8)) % U32, by omega, ?_⟩
          rw [← hp]
          simp only [if_neg hg]

/-- Witness for `draw_icon_safe`: a zero-width header draws the
requested-size placeholder. -/
theorem draw_icon_safe_witness :
    draw_icon ⟨0, 5, 32, 0⟩ [] 7 = IconDraw.placeholder 7 7 :=
  (draw_icon_safe ⟨0, 5, 32, 0⟩ [] 7).1 (Or.inl rfl)

/-- C1 (counterexample): with width 1, height 2^30 and 32-bit pixels,
`stride * height` is 2^32 and the source's `u32` multiplication wraps
to 0, so the empty buffer passes the length check and `draw_icon`
decodes instead of drawing the placeholder, although the buffer is
shorter than the mathematical `stride × height`. -/
theorem draw_icon_overflow_counterexample :
    (draw_icon ⟨1, 1073741824, 32, 0⟩ [] 7).isPlaceholder = false ∧
    ([] : List ℕ).length <
      strideOf (1 : Int).natAbs (32 / 8) * (1073741824 : Int).natAbs := by
  constructor
  · rfl
  · norm_num [strideOf]

/-- Auxiliary: after its bounds guard, the pixel-loop body produces
exactly the premultiplied B,G,R[,A] pixel read at the given offset. -/
theorem decodeAt_eq_bytes {data : List ℕ} {off B : ℕ}
    (hbytes : ∀ u ∈ data, u < 256) (hoff : off + B ≤ data.length)
    (hB : 3 ≤ B) :
    decodeAt data off B =
      some ⟨data.getD (off + 2) 0 *
              (if B = 4 then data.getD (off + 3) 0 else 255) / 255,
            data.getD (off + 1) 0 *
              (if B = 4 then data.getD (off + 3) 0 else 255) / 255,
            data.getD off 0 *
              (if B = 4 then data.getD (off + 3) 0 else 255) / 255,
            if B = 4 then data.getD (off + 3) 0 else 255⟩ := by
  have hb : data.getD off 0 < 256 := getD_lt_256 hbytes (by omega)
  have hg : data.getD (off + 1) 0 < 256 := getD_lt_256 hbytes (by omega)
  have hr : data.getD (off + 2) 0 < 256 := getD_lt_256 hbytes (by omega)
  by_cases ha : 0 < (if B = 4 then data.getD (off + 3) 0 else 255)
  · simp only [decodeAt, premulFromRgba]
    rw [if_pos ha,
      if_pos ⟨premul_channel_le hr, premul_channel_le hg, premul_channel_le hb⟩]
  · have hB4 : B = 4 := by
      by_contra hB4
      simp [hB4] at ha
    have ha3 : data[off + 3]?.getD 0 = 0 := by
      have ha0 : (if B = 4 then data.getD (off + 3) 0 else 255) = 0 :=
        Nat.eq_zero_of_not_pos ha
      simpa [hB4, List.getD_eq_getElem?_getD] using ha0
    simp only [decodeAt, premulFromRgba]
    rw [if_neg ha]
    simp [hB4, ha3]

/-- C3: for every valid bitmap (24- or 32-bit, uncompressed, with
`stride×height` free of 32-bit overflow and a buffer at least that
long), `draw_icon` decodes an icon whose pixel `(x, y)` comes from
source row `y` (top-down) or `height−1−y` (bottom-up), reading the
bytes at `row*stride + x*bytesPerPixel` in order B,G,R[,A] with alpha
defaulting to 255 at 24-bit, and stores the premultiplied value with
`RGB = sourceRGB * alpha / 255` — zero-alpha pixels becoming all-zero. -/
theorem draw_icon_decode_spec :
    ∀ (icon_info : BitmapHeader) (pixel_data : List ℕ) (expected_size x y : ℕ),
      icon_info.biWidth.natAbs ≠ 0 →
      icon_info.biHeight.natAbs ≠ 0 →
      (icon_info.biBitCount = 24 ∨ icon_info.biBitCount = 32) →
      icon_info.biCompression = 0 →
      strideOf icon_info.biWidth.natAbs (icon_info.biBitCount / 8) *
          icon_info.biHeight.natAbs < U32 →
      strideOf icon_info.biWidth.natAbs (icon_info.biBitCount / 8) *
          icon_info.biHeight.natAbs ≤ pixel_data.length →
      (∀ u ∈ pixel_data, u < 256) →
      x < icon_info.biWidth.natAbs →
      y < icon_info.biHeight.natAbs →
      ∃ pix,
        draw_icon icon_info pixel_data expected_size =
          IconDraw.icon icon_info.biWidth.natAbs icon_info.biHeight.natAbs pix ∧
        pix x y = some (specDecodedPixel icon_info pixel_data x y) := by
  intro hdr data es x y hW hH hbpp hcomp hov hlen hbytes hx hy
  have hB34 : hdr.biBitCount / 8 = 3 ∨ hdr.biBitCount / 8 = 4 := by
    rcases hbpp with h | h <;> rw [h] <;> norm_num
  have hfold : 4 * ((hdr.biWidth.natAbs * (hdr.biBitCount / 8) + 3) / 4) =
      strideOf hdr.biWidth.natAbs (hdr.biBitCount / 8) := rfl
  have hWB_S : hdr.biWidth.natAbs * (hdr.biBitCount / 8) ≤
      strideOf hdr.biWidth.natAbs (hdr.biBitCount / 8) := by
    unfold strideOf
    omega
  have hSleSH : strideOf hdr.biWidth.natAbs (hdr.biBitCount / 8) ≤
      strideOf hdr.biWidth.natAbs (hdr.biBitCount / 8) * hdr.biHeight.natAbs :=
    Nat.le_mul_of_pos_right _ (by omega)
  have hSmod : strideOf hdr.biWidth.natAbs (hdr.biBitCount / 8) % U32 =
      strideOf hdr.biWidth.natAbs (hdr.biBitCount / 8) :=
    Nat.mod_eq_of_lt (by omega)
  have hSHmod : (strideOf hdr.biWidth.natAbs (hdr.biBitCount / 8) *
      hdr.biHeight.natAbs) % U32 =
      strideOf hdr.biWidth.natAbs (hdr.biBitCount / 8) * hdr.biHeight.natAbs :=
    Nat.mod_eq_of_lt hov
  have hrej : ¬(hdr.biWidth.natAbs = 0 ∨ hdr.biHeight.natAbs = 0 ∨
      (hdr.biBitCount ≠ 32 ∧ hdr.biBitCount ≠ 24) ∨ hdr.biCompression ≠ 0) := by
    push_neg
    refine ⟨hW, hH, ?_, hcomp⟩
    intro h32
    rcases hbpp with h | h
    · exact h
    · exact absurd h h32
  have hrow : (if hdr.biHeight < 0 then y else hdr.biHeight.natAbs - 1 - y) <
      hdr.biHeight.natAbs := by
    split <;> omega
  have hoffb : (if hdr.biHeight < 0 then y else hdr.biHeight.natAbs - 1 - y) *
        strideOf hdr.biWidth.natAbs (hdr.biBitCount / 8) +
      x * (hdr.biBitCount / 8) + hdr.biBitCount / 8 ≤
      strideOf hdr.biWidth.natAbs (hdr.biBitCount / 8) * hdr.biHeight.natAbs :=
    offset_bound hx hrow hWB_S
  have hoffmod : ((if hdr.biHeight < 0 then y else hdr.biHeight.natAbs - 1 - y) *
        strideOf hdr.biWidth.natAbs (hdr.biBitCount / 8) +
      x * (hdr.biBitCount / 8)) % U32 =
      (if hdr.biHeight < 0 then y else hdr.biHeight.natAbs - 1 - y) *
        strideOf hdr.biWidth.natAbs (hdr.biBitCount / 8) +
      x * (hdr.biBitCount / 8) :=
    Nat.mod_eq_of_lt (by omega)
  refine ⟨fun x_dest y_dest =>
      if data.length <
          ((if hdr.biHeight < 0 then y_dest else hdr.biHeight.natAbs - 1 - y_dest) *
              (4 * ((hdr.biWidth.natAbs * (hdr.biBitCount / 8) + 3) / 4) % U32) +
            x_dest * (hdr.biBitCount / 8)) % U32 + hdr.biBitCount / 8 then none
      else
        decodeAt data
          (((if hdr.biHeight < 0 then y_dest else hdr.biHeight.natAbs - 1 - y_dest) *
              (4 * ((hdr.biWidth.natAbs * (hdr.biBitCount / 8) + 3) / 4) % U32) +
            x_dest * (hdr.biBitCount / 8)) % U32) (hdr.biBitCount / 8),
    ?_, ?_⟩
  · simp only [draw_icon]
    rw [if_neg hrej]
    rw [hfold, hSmod, hSHmod, if_neg (not_lt.mpr hlen)]
  · dsimp only
    rw [hfold, hSmod, hoffmod, if_neg (by omega)]
    rw [decodeAt_eq_bytes hbytes (by omega) (by omega)]
    simp only [specDecodedPixel]

/-- Witness for `draw_icon_decode_spec`: a 1×1 top-down 32-bit bitmap
with bytes B,G,R,A = 10,20,30,128 decodes to the premultiplied pixel. -/
theorem draw_icon_decode_spec_witness :
    ∃ pix, draw_icon ⟨1, -1, 32, 0⟩ [10, 20, 30, 128] 7 =
        IconDraw.icon (1 : Int).natAbs (-1 : Int).natAbs pix ∧
      pix 0 0 = some (specDecodedPixel ⟨1, -1, 32, 0⟩ [10, 20, 30, 128] 0 0) :=
  draw_icon_decode_spec ⟨1, -1, 32, 0⟩ [10, 20, 30, 128] 7 0 0
    (by decide) (by decide) (Or.inr rfl) rfl (by decide) (by decide)
    (by decide) (by decide) (by decide)
